import Mathlib

/-
Verification of the PDF outline extractor (`main.py`).

The pipeline is embedded shallowly:
  * Python strings become `List Char`; `str.split()`, `str.strip()`,
    `str.lower()`, `str.rstrip('- ')` and the two `re.sub` passes of
    `clean_text` are modelled character by character.  `\w` and `\s` are
    modelled at ASCII granularity (`Char.isAlphanum`/underscore and the six
    ASCII whitespace characters Python's `str.split` uses), matching the
    behaviour of the source on ASCII input.
  * Font sizes (Python floats) are modelled as exact rationals `ℚ`;
    `round(x, 1)` is modelled as round-half-up to one decimal (the claims
    never depend on the tie direction of Python's round-half-to-even).
  * The layout data handed over by PyMuPDF (`page.get_text("dict")`) is
    modelled by `Span`/`Line`/`Block` structures carrying exactly the
    fields the source reads: span text, span size, block top-y.
  * The recursions of the two `re.sub` scans advance past a matched region,
    so they are written with an explicit fuel argument instantiated at the
    string length; one character is consumed per step, hence the zero-fuel
    branch is unreachable (Python's `re.sub` always terminates).
-/

/-! ### Character classes -/

/-- ASCII model of Python's `\s` / `str.split()` whitespace. -/
def isPySpace (c : Char) : Bool :=
  c == ' ' || c == '\t' || c == '\n' || c == '\r' ||
  c == Char.ofNat 11 || c == Char.ofNat 12

/-- ASCII model of Python's `\w`. -/
def isWordChar (c : Char) : Bool :=
  c.isAlphanum || c == '_'

/-! ### `str.split()` / `" ".join` / `str.strip()` -/

/-- One `foldr` step of whitespace splitting: a whitespace character opens a
new (possibly empty) run, any other character is prepended to the head run. -/
def splitF (c : Char) (acc : List (List Char)) : List (List Char) :=
  if isPySpace c then [] :: acc
  else
    match acc with
    | [] => [[c]]
    | w :: ws => (c :: w) :: ws

/-- Maximal runs of non-whitespace characters, with empty runs recording
whitespace boundaries. -/
def splitRuns (l : List Char) : List (List Char) :=
  l.foldr splitF []

/-- Python `str.split()` with no separator: split on whitespace runs and
drop empty pieces. -/
def pySplit (l : List Char) : List (List Char) :=
  (splitRuns l).filter (fun w => !w.isEmpty)

/-- Python `" ".join(ws)`. -/
def glue : List (List Char) → List Char
  | [] => []
  | [w] => w
  | w :: ws => w ++ ' ' :: glue ws

/-- Python `str.strip()`: drop leading and trailing whitespace. -/
def pyStrip (l : List Char) : List Char :=
  ((l.dropWhile isPySpace).reverse.dropWhile isPySpace).reverse

/-- `text.replace("\n", " ")`. -/
def replaceNL (l : List Char) : List Char :=
  l.map (fun c => if c = '\n' then ' ' else c)

/-- `" ".join(text.replace("\n", " ").split())`: whitespace normalization,
the first step of `clean_text`. -/
def normalizeWs (l : List Char) : List Char :=
  glue (pySplit (replaceNL l))

/-! ### The two `re.sub` passes of `clean_text` -/

/-- Attempt to match `-\s+(\w)` at the head of `l`; on success return the
trailing word character (capture group 2) and the remainder of the string
after the match. -/
def matchBreak (l : List Char) : Option (Char × List Char) :=
  match l with
  | [] => none
  | c :: rest =>
    if c = '-' then
      match rest.takeWhile isPySpace, rest.dropWhile isPySpace with
      | _ :: _, d :: r => if isWordChar d then some (d, r) else none
      | _, _ => none
    else none

/-- The left-to-right non-overlapping scan of
`re.sub(r'(\w)-\s+(\w)', r'\1\2', text)`.  Fuel decreases by one per emitted
character and every step emits at least one character, so with
`fuel = l.length` the zero-fuel branch (which returns the rest unscanned)
is never reached. -/
def hyphenFixGo : Nat → List Char → List Char
  | _, [] => []
  | 0, c :: rest => c :: rest
  | fuel + 1, c :: rest =>
    if isWordChar c then
      match matchBreak rest with
      | some (d, r) => c :: d :: hyphenFixGo fuel r
      | none => c :: hyphenFixGo fuel rest
    else c :: hyphenFixGo fuel rest

/-- `re.sub(r'(\w)-\s+(\w)', r'\1\2', text)`. -/
def hyphenFix (l : List Char) : List Char :=
  hyphenFixGo l.length l

/-- Attempt to match `\s+(\w)` at the head of `l`; on success return the
whitespace run, the word character and the remainder after the match. -/
def matchGap (l : List Char) : Option (List Char × Char × List Char) :=
  match l.takeWhile isPySpace, l.dropWhile isPySpace with
  | sp₀ :: sp₁, d :: r => if isWordChar d then some (sp₀ :: sp₁, d, r) else none
  | _, _ => none

/-- The scan of
`re.sub(r'(\w)\s+(\w)', lambda m: m.group(1) + m.group(2) if
len(m.group(1)) > 2 and len(m.group(2)) > 2 else m.group(0), text)`.
The capture groups are the two single matched characters `[c]` and `[d]`. -/
def wordGapFixGo : Nat → List Char → List Char
  | _, [] => []
  | 0, c :: rest => c :: rest
  | fuel + 1, c :: rest =>
    if isWordChar c then
      match matchGap rest with
      | some (sp, d, r) =>
        (if 2 < ([c] : List Char).length ∧ 2 < ([d] : List Char).length
         then [c, d] else c :: (sp ++ [d])) ++ wordGapFixGo fuel r
      | none => c :: wordGapFixGo fuel rest
    else c :: wordGapFixGo fuel rest

/-- The third `re.sub` of `clean_text`. -/
def wordGapFix (l : List Char) : List Char :=
  wordGapFixGo l.length l

/-- `clean_text` from `main.py`: whitespace normalization, hyphenated-break
repair, the (conditionally merging) no-hyphen pass, final strip. -/
def clean_text (l : List Char) : List Char :=
  pyStrip (wordGapFix (hyphenFix (normalizeWs l)))

/-! ### Noise filter -/

/-- The module-level `NOISE_WORDS` set. -/
def NOISE_WORDS : List (List Char) :=
  ["open access".toList, "research".toList, "sustainable environment".toList,
   "article".toList, "journal".toList, "abstract".toList,
   "introduction".toList, "references".toList, "acknowledgments".toList,
   "appendix".toList, "received".toList, "accepted".toList,
   "published".toList, "volume".toList, "issue".toList, "pp.".toList,
   "pages".toList]

/-- ASCII model of Python `str.lower()`. -/
def pyLower (l : List Char) : List Char :=
  l.map Char.toLower

/-- Does `l` start with `pre`? -/
def startsWith : List Char → List Char → Bool
  | [], _ => true
  | _ :: _, [] => false
  | a :: as, b :: bs => a == b && startsWith as bs

/-- Python's substring containment `needle in hay`. -/
def containsSub : List Char → List Char → Bool
  | hay, needle =>
    match hay with
    | [] => needle.isEmpty
    | _ :: rest => startsWith needle hay || containsSub rest needle

/-- `is_noisy` from `main.py`: membership of a noise word in the lowered,
stripped text, or trimmed length at most 3. -/
def is_noisy (text : List Char) : Bool :=
  let text_lower := pyStrip (pyLower text)
  NOISE_WORDS.any (fun w => containsSub text_lower w) ||
    (pyStrip text).length ≤ 3

example : clean_text "under-\n standing".toList = "understanding".toList := by decide
example : clean_text "word   with\n  extra   spaces".toList = "word with extra spaces".toList := by decide
example : clean_text "a- b- c".toList = "ab- c".toList := by decide
example : clean_text "ab- c".toList = "abc".toList := by decide
example : is_noisy "Abstract".toList = true := by decide
example : is_noisy "pg".toList = true := by decide
example : is_noisy "Getting Started".toList = false := by decide

/-! ### Layout data model -/

/-- A PyMuPDF text span: the two fields the source reads. -/
structure Span where
  text : List Char
  size : ℚ
deriving DecidableEq

/-- A line: an ordered sequence of spans. -/
structure Line where
  spans : List Span
deriving DecidableEq

/-- A block: its bbox top-y coordinate and its lines (empty for image
blocks, which the source skips via `block.get("lines", [])`). -/
structure Block where
  bboxY : ℚ
  lines : List Line
deriving DecidableEq

/-- A page is an ordered sequence of blocks. -/
abbrev PdfPage := List Block

/-- Addition on `ℚ` written through `mkRat` so that it evaluates inside the
kernel (the library's `Rat.add` is irreducible); equal to `+` by
`qAdd_eq`. -/
def qAdd (a b : ℚ) : ℚ :=
  mkRat (a.num * b.den + b.num * a.den) (a.den * b.den)

/-- Multiplication on `ℚ` written through `mkRat`; equal to `*` by
`qMul_eq`. -/
def qMul (a b : ℚ) : ℚ :=
  mkRat (a.num * b.num) (a.den * b.den)

/-- Subtraction on `ℚ` written through `mkRat`; equal to `-` by
`qSub_eq`. -/
def qSub (a b : ℚ) : ℚ :=
  mkRat (a.num * b.den - b.num * a.den) (a.den * b.den)

theorem qAdd_eq (a b : ℚ) : qAdd a b = a + b :=
  (Rat.add_def' a b).symm

theorem qSub_eq (a b : ℚ) : qSub a b = a - b :=
  (Rat.sub_def' a b).symm

theorem qMul_eq (a b : ℚ) : qMul a b = a * b := by
  rw [qMul, Rat.mul_def, Rat.normalize_eq_mkRat]

/-- `round(x, 1)`, modelled as round-half-up to one decimal over exact
rationals (no claim depends on the tie direction of float
round-half-to-even): the floor of `10·x + 1/2`, divided by 10. -/
def round1 (q : ℚ) : ℚ :=
  mkRat (Rat.floor (qAdd (qMul q 10) (mkRat 1 2))) 10

/-! ### Title detection (`extract_title`) -/

/-- First pass of `extract_title`: the rounded sizes that receive at least
one cleaned span text that is neither noisy nor shorter than 5
characters (the keys of `size_to_texts`). -/
def titleSizeKeys (pg : PdfPage) : List ℚ :=
  pg.flatMap (fun b =>
    b.lines.flatMap (fun ln =>
      ln.spans.filterMap (fun sp =>
        let text := clean_text sp.text
        if is_noisy text || text.length < 5 then none
        else some (round1 sp.size))))

/-- Python `max(x, y)` on sizes, written as an explicit comparison so that
it evaluates inside the kernel. -/
def maxQ (a b : ℚ) : ℚ :=
  if a ≤ b then b else a

/-- `max(size_to_texts.keys())` over a nonempty key list. -/
def maxKey : List ℚ → Option ℚ
  | [] => none
  | x :: xs => some (xs.foldl maxQ x)

/-- The cleaned texts of the spans of one line whose rounded size equals
the title size and that are not noisy (`line_texts`). -/
def titleLineTexts (maxSize : ℚ) (ln : Line) : List (List Char) :=
  ln.spans.filterMap (fun sp =>
    if round1 sp.size = maxSize then
      let text := clean_text sp.text
      if is_noisy text then none else some text
    else none)

/-- Python `abs(x)`, written on the numerator so that it evaluates inside
the kernel. -/
def absQ (q : ℚ) : ℚ :=
  if q.num < 0 then mkRat (-q.num) q.den else q

/-- Accumulator of the second `extract_title` pass: the closed title parts,
the block position of the last title line, the open title block. -/
structure TitleAcc where
  parts : List (List Char)
  prevPos : Option ℚ
  cur : List (List Char)

/-- One line of the second `extract_title` pass. -/
def titleStep (maxSize : ℚ) (acc : TitleAcc) (posLn : ℚ × Line) : TitleAcc :=
  let lineTexts := titleLineTexts maxSize posLn.2
  if lineTexts = [] then acc
  else
    let fullLine := glue lineTexts
    if h : acc.prevPos.isSome then
      if absQ (qSub posLn.1 (acc.prevPos.get h)) < 20 ∧ acc.cur ≠ [] then
        ⟨acc.parts, some posLn.1, acc.cur ++ [fullLine]⟩
      else
        ⟨acc.parts ++ (if acc.cur = [] then [] else [glue acc.cur]),
         some posLn.1, [fullLine]⟩
    else
      ⟨acc.parts ++ (if acc.cur = [] then [] else [glue acc.cur]),
       some posLn.1, [fullLine]⟩

/-- `extract_title(page)`: returns the cleaned title text and the maximal
candidate size of page 1, or `("", None)` when no span qualifies. -/
def extract_title (pg : PdfPage) : List Char × Option ℚ :=
  match maxKey (titleSizeKeys pg) with
  | none => ([], none)
  | some maxSize =>
    let posLines := pg.flatMap (fun b => b.lines.map (fun ln => (b.bboxY, ln)))
    let acc := posLines.foldl (titleStep maxSize) ⟨[], none, []⟩
    let parts := acc.parts ++ (if acc.cur = [] then [] else [glue acc.cur])
    (clean_text (glue parts), some maxSize)

/-! ### Heading candidate collection -/

/-- A heading candidate `(size, text, page)`. -/
structure Cand where
  size : ℚ
  text : List Char
  page : Nat
deriving DecidableEq

/-- One line of the candidate scan: clean each span, skip noisy ones, track
the maximal rounded span size (starting from 0), join the surviving texts,
clean the joined line, and emit it when it is nonempty, longer than 3
characters and not noisy. -/
def lineCandidate (pageNum : Nat) (ln : Line) : Option Cand :=
  let acc := ln.spans.foldl
    (fun (acc : ℚ × List (List Char)) sp =>
      let text := clean_text sp.text
      let size := round1 sp.size
      if is_noisy text then acc
      else ((if acc.1 < size then size else acc.1), acc.2 ++ [text]))
    (0, [])
  let fullLine := clean_text (glue acc.2)
  if fullLine ≠ [] ∧ 3 < fullLine.length ∧ is_noisy fullLine = false then
    some ⟨acc.1, fullLine, pageNum⟩
  else none

/-- All candidates of one page, in block/line order. -/
def pageCandidates (pageNum : Nat) (pg : PdfPage) : List Cand :=
  pg.flatMap (fun b => b.lines.filterMap (lineCandidate pageNum))

/-- Candidates of all pages; `enumerate(doc, start=1)` becomes the
incrementing page counter. -/
def collectFrom : Nat → List PdfPage → List Cand
  | _, [] => []
  | n, pg :: rest => pageCandidates n pg ++ collectFrom (n + 1) rest

/-! ### Multi-line grouping (`group_multiline_headings`) -/

/-- `text.split()[-1]`, the last whitespace-separated word. -/
def lastWord (l : List Char) : List Char :=
  (pySplit l).getLastD []

/-- `text.split()[0]`, the first whitespace-separated word. -/
def firstWord (l : List Char) : List Char :=
  (pySplit l).headD []

/-- `text.rstrip('- ')`. -/
def rstripDashSp (l : List Char) : List Char :=
  (l.reverse.dropWhile (fun c => c == '-' || c == ' ')).reverse

/-- The merge test of `group_multiline_headings`: same size, same page, and
a continuation signal (lowercase start, short last word of the group,
short first word of the candidate). -/
def shouldMerge (g c : Cand) : Bool :=
  decide (c.size = g.size) && decide (c.page = g.page) &&
  ((c.text.headD ' ').isLower ||
    decide ((lastWord g.text).length ≤ 3) ||
    decide ((firstWord c.text).length ≤ 3))

/-- The join rule applied on a merge: no separating space (after stripping
trailing `-`/space) for broken words, else a single space. -/
def joinTexts (gt ct : List Char) : List Char :=
  if gt.getLastD ' ' == '-' ||
      decide ((lastWord gt).length ≤ 2) || decide ((firstWord ct).length ≤ 2)
  then rstripDashSp gt ++ ct
  else gt ++ ' ' :: ct

/-- The scan of `group_multiline_headings` with the current group as
accumulator; the final group is always emitted. -/
def groupGo : Cand → List Cand → List Cand
  | g, [] => [g]
  | g, c :: rest =>
    if shouldMerge g c then groupGo ⟨g.size, joinTexts g.text c.text, g.page⟩ rest
    else g :: groupGo c rest

/-- `group_multiline_headings` from `main.py`. -/
def group_multiline_headings : List Cand → List Cand
  | [] => []
  | c :: rest => groupGo c rest

/-! ### Level thresholds and classification -/

/-- The `thresholds` dict. -/
structure ThresholdTable where
  h1 : ℚ
  h2 : ℚ
  h3 : ℚ
deriving DecidableEq

/-- Insert into a strictly descending list, skipping duplicates. -/
def insertDesc (x : ℚ) : List ℚ → List ℚ
  | [] => [x]
  | y :: ys =>
    if y < x then x :: y :: ys
    else if x = y then y :: ys
    else y :: insertDesc x ys

/-- `sorted(set(l), reverse=True)`: the distinct sizes in strictly
descending order. -/
def uniqueDesc (l : List ℚ) : List ℚ :=
  l.foldl (fun acc x => insertDesc x acc) []

/-- The threshold derivation of `extract_outline`.  The source indexes
`unique_sizes[0]`/`unique_sizes[-1]` unguarded in the fallback branches;
the pipeline only reaches this point with a nonempty list, so the `0`
defaults of `headD`/`getLastD` are unreachable there. -/
def mkThresholds (u : List ℚ) : ThresholdTable :=
  ⟨u.headD 16,
   if 1 < u.length then u.getD 1 0 else qMul (u.headD 0) (mkRat 17 20),
   if 2 < u.length then u.getD 2 0 else qMul (u.getLastD 0) (mkRat 7 10)⟩

/-- Heading levels. -/
inductive HLevel
  | H1
  | H2
  | H3
deriving DecidableEq

/-- Python `size == title_size` where `title_size` may be `None` (a float
never equals `None`). -/
def eqTitleSize (s : ℚ) (ts : Option ℚ) : Bool :=
  match ts with
  | none => false
  | some t => decide (s = t)

/-- `detect_heading_level` from `main.py`. -/
def detect_heading_level (size : ℚ) (thr : ThresholdTable)
    (titleSize : Option ℚ) : Option HLevel :=
  if eqTitleSize size titleSize then none
  else if thr.h1 ≤ size then some .H1
  else if thr.h2 ≤ size then some .H2
  else if thr.h3 ≤ size then some .H3
  else none

/-! ### Deduplication and assembly -/

/-- An output heading. -/
structure Heading where
  level : HLevel
  text : List Char
  page : Nat
deriving DecidableEq

/-- The final output record. -/
structure OutlineRec where
  title : List Char
  outline : List Heading
deriving DecidableEq

/-- The dedup key `(text.lower(), page)`. -/
def keyOf (c : Cand) : List Char × Nat :=
  (pyLower c.text, c.page)

/-- The dedup key of an emitted heading. -/
def headingKey (h : Heading) : List Char × Nat :=
  (pyLower h.text, h.page)

/-- The final loop of `extract_outline`: skip candidates whose key was
seen, record the key of every surviving candidate (leveled or not), emit
those that classify to a level. -/
def assembleGo (thr : ThresholdTable) (ts : Option ℚ) :
    List Cand → List (List Char × Nat) → List Heading
  | [], _ => []
  | c :: rest, seen =>
    if keyOf c ∈ seen then assembleGo thr ts rest seen
    else
      match detect_heading_level c.size thr ts with
      | some lv => ⟨lv, c.text, c.page⟩ :: assembleGo thr ts rest (keyOf c :: seen)
      | none => assembleGo thr ts rest (keyOf c :: seen)

/-- The assembly loop started with an empty `seen` set. -/
def assembleOutline (cands : List Cand) (thr : ThresholdTable)
    (ts : Option ℚ) : List Heading :=
  assembleGo thr ts cands []

/-- The outline part of `extract_outline` after grouping: early exits for
no candidates and for no non-title sizes, else threshold derivation and
assembly. -/
def outlineOf (titleSize : Option ℚ) (grouped : List Cand) : List Heading :=
  if grouped = [] then []
  else
    let sizes := grouped.filterMap (fun c =>
      if eqTitleSize c.size titleSize then none else some c.size)
    if sizes = [] then []
    else assembleOutline grouped (mkThresholds (uniqueDesc sizes)) titleSize

/-- `extract_outline(pdf_path)`.  Opening the PDF and computing the
filename fallback `os.path.basename(pdf_path).replace(".pdf", "")` are the
caller's I/O boundary; the fallback string is taken as a parameter. -/
def extract_outline (fallback : List Char) (pages : List PdfPage) : OutlineRec :=
  let t := extract_title (pages.headD [])
  let title := if t.1 = [] then fallback else t.1
  let grouped := group_multiline_headings (collectFrom 1 pages)
  ⟨title, outlineOf t.2 grouped⟩

/-! ### Basic facts about the character classes -/

theorem wordChar_nospace {c : Char} (h : isWordChar c = true) :
    isPySpace c = false := by
  by_contra h'
  have hs : isPySpace c = true := by
    cases hps : isPySpace c
    · exact absurd hps h'
    · rfl
  simp only [isPySpace, Bool.or_eq_true, beq_iff_eq] at hs
  rcases hs with ((((h1 | h1) | h1) | h1) | h1) | h1 <;> subst h1 <;>
    exact absurd h (by decide)

theorem space_is_pyspace : isPySpace ' ' = true := by decide

theorem nospace_ne_blank {c : Char} (h : isPySpace c = false) : c ≠ ' ' := by
  intro he
  subst he
  exact absurd h (by decide)

/-! ### Inversion of the two regex matchers -/

theorem matchGap_eq_some {l sp : List Char} {d : Char} {r : List Char}
    (h : matchGap l = some (sp, d, r)) :
    l = sp ++ d :: r ∧ sp ≠ [] ∧ isWordChar d = true := by
  unfold matchGap at h
  rcases htw : l.takeWhile isPySpace with _ | ⟨a, as⟩ <;> rw [htw] at h
  · simp at h
  · rcases hdw : l.dropWhile isPySpace with _ | ⟨d', r'⟩ <;> rw [hdw] at h
    · simp at h
    · by_cases hw : isWordChar d' = true
      · simp only [hw, if_true, Option.some.injEq, Prod.mk.injEq] at h
        obtain ⟨h1, h2, h3⟩ := h
        subst h1; subst h2; subst h3
        refine ⟨?_, List.cons_ne_nil _ _, hw⟩
        rw [← htw, ← hdw]
        exact (List.takeWhile_append_dropWhile isPySpace l).symm
      · simp [hw] at h

theorem matchBreak_eq_some {l : List Char} {d : Char} {r : List Char}
    (h : matchBreak l = some (d, r)) :
    ∃ sp, l = '-' :: (sp ++ d :: r) ∧ sp ≠ [] ∧
      (∀ c ∈ sp, isPySpace c = true) ∧ isWordChar d = true := by
  cases l with
  | nil => simp [matchBreak] at h
  | cons c rest =>
    by_cases hc : c = '-'
    · subst hc
      simp only [matchBreak, if_true] at h
      rcases htw : rest.takeWhile isPySpace with _ | ⟨a, as⟩ <;> rw [htw] at h
      · simp at h
      · rcases hdw : rest.dropWhile isPySpace with _ | ⟨d', r'⟩ <;> rw [hdw] at h
        · simp at h
        · by_cases hw : isWordChar d' = true
          · simp only [hw, if_true, Option.some.injEq, Prod.mk.injEq] at h
            obtain ⟨h1, h2⟩ := h
            subst h1; subst h2
            refine ⟨a :: as, ?_, List.cons_ne_nil _ _, ?_, hw⟩
            · rw [← htw, ← hdw]
              rw [List.takeWhile_append_dropWhile isPySpace rest]
            · intro x hx
              rw [← htw] at hx
              exact List.mem_takeWhile_imp hx
          · simp [hw] at h
    · simp [matchBreak, hc] at h

/-! ### The no-hyphen pass is the identity -/

theorem wordGapFixGo_id : ∀ fuel l, wordGapFixGo fuel l = l := by
  intro fuel
  induction fuel with
  | zero => intro l; cases l <;> rfl
  | succ n ih =>
    intro l
    cases l with
    | nil => rfl
    | cons c rest =>
      by_cases hw : isWordChar c = true
      · cases hm : matchGap rest with
        | none => simp [wordGapFixGo, hw, hm, ih]
        | some x =>
          obtain ⟨sp, d, r⟩ := x
          obtain ⟨hrest, -, -⟩ := matchGap_eq_some hm
          subst hrest
          simp [wordGapFixGo, hw, hm, ih]
      · simp [wordGapFixGo, hw, ih]

/-- The merge condition of the third `re.sub` compares the lengths of the
two captured single characters, so it never holds and the pass returns its
input unchanged. -/
theorem wordGapFix_id (l : List Char) : wordGapFix l = l :=
  wordGapFixGo_id l.length l

/-! ### Words and whitespace normal form -/

/-- A word list as produced by `str.split()`: every word nonempty and free
of whitespace characters. -/
def WordsP (ws : List (List Char)) : Prop :=
  ∀ w ∈ ws, w ≠ [] ∧ ∀ c ∈ w, isPySpace c = false

/-- Prepend a nonempty whitespace-free word to a run list. -/
def prependW (w : List Char) (acc : List (List Char)) : List (List Char) :=
  match acc with
  | [] => [w]
  | v :: vs => (w ++ v) :: vs

theorem splitRuns_nil : splitRuns [] = [] := rfl

theorem splitRuns_cons (c : Char) (l : List Char) :
    splitRuns (c :: l) = splitF c (splitRuns l) := rfl

theorem splitRuns_space {s : Char} (hs : isPySpace s = true) (l : List Char) :
    splitRuns (s :: l) = [] :: splitRuns l := by
  simp [splitRuns_cons, splitF, hs]

theorem splitRuns_word {w : List Char} (hw : ∀ c ∈ w, isPySpace c = false)
    (hne : w ≠ []) (l : List Char) :
    splitRuns (w ++ l) = prependW w (splitRuns l) := by
  induction w with
  | nil => exact absurd rfl hne
  | cons c w' ih =>
    have hc : isPySpace c = false := hw c (List.mem_cons_self c w')
    by_cases h' : w' = []
    · subst h'
      rw [List.cons_append, List.nil_append, splitRuns_cons]
      cases hS : splitRuns l with
      | nil => simp [splitF, hc, prependW]
      | cons v vs => simp [splitF, hc, prependW]
    · rw [List.cons_append, splitRuns_cons,
        ih (fun x hx => hw x (List.mem_cons_of_mem c hx)) h']
      cases hS : splitRuns l with
      | nil => simp [splitF, hc, prependW]
      | cons v vs => simp [splitF, hc, prependW]

theorem splitRuns_nospace : ∀ l w, w ∈ splitRuns l →
    ∀ c ∈ w, isPySpace c = false := by
  intro l
  induction l with
  | nil => intro w hw; simp [splitRuns_nil] at hw
  | cons a rest ih =>
    intro w hw
    rw [splitRuns_cons] at hw
    by_cases ha : isPySpace a = true
    · simp only [splitF, ha, if_true] at hw
      rcases List.mem_cons.mp hw with h | h
      · subst h; intro c hc; simp at hc
      · exact ih w h
    · have ha' : isPySpace a = false := by
        cases h : isPySpace a
        · rfl
        · exact absurd h ha
      simp only [splitF, ha', Bool.false_eq_true, if_false] at hw
      cases hS : splitRuns rest with
      | nil =>
        rw [hS] at hw
        rcases List.mem_cons.mp hw with h | h
        · subst h
          intro c hc
          rcases List.mem_singleton.mp hc with rfl
          exact ha'
        · simp at h
      | cons v vs =>
        rw [hS] at hw
        rcases List.mem_cons.mp hw with h | h
        · subst h
          intro c hc
          rcases List.mem_cons.mp hc with rfl | hc'
          · exact ha'
          · exact ih v (hS ▸ List.mem_cons_self v vs) c hc'
        · exact ih w (hS ▸ List.mem_cons_of_mem v h)

theorem words_pySplit (l : List Char) : WordsP (pySplit l) := by
  intro w hw
  obtain ⟨hmem, hne⟩ := List.mem_filter.mp hw
  constructor
  · intro he
    subst he
    simp at hne
  · exact splitRuns_nospace l w hmem

theorem glue_cons {w : List Char} {ws : List (List Char)} (h : ws ≠ []) :
    glue (w :: ws) = w ++ ' ' :: glue ws := by
  cases ws with
  | nil => exact absurd rfl h
  | cons v vs => rfl

theorem glue_ne_nil {ws : List (List Char)} (hws : WordsP ws) (h : ws ≠ []) :
    glue ws ≠ [] := by
  cases ws with
  | nil => exact absurd rfl h
  | cons w ws' =>
    have hw := (hws w (List.mem_cons_self w ws')).1
    cases ws' with
    | nil => exact hw
    | cons v vs =>
      rw [glue_cons (List.cons_ne_nil v vs)]
      intro he
      exact hw (List.append_eq_nil.mp he).1

theorem pySplit_glue : ∀ ws, WordsP ws → pySplit (glue ws) = ws := by
  intro ws
  induction ws with
  | nil => intro _; rfl
  | cons w ws' ih =>
    intro hws
    have hw := hws w (List.mem_cons_self w ws')
    have hwE : w.isEmpty = false := by
      cases w with
      | nil => exact absurd rfl hw.1
      | cons a as => rfl
    cases ws' with
    | nil =>
      show pySplit w = [w]
      unfold pySplit
      rw [show w = w ++ [] from (List.append_nil w).symm,
        splitRuns_word hw.2 hw.1, splitRuns_nil]
      simp [prependW, List.filter, hwE]
    | cons v vs =>
      have hws' : WordsP (v :: vs) :=
        fun x hx => hws x (List.mem_cons_of_mem w hx)
      rw [glue_cons (List.cons_ne_nil v vs)]
      unfold pySplit
      rw [splitRuns_word hw.2 hw.1, splitRuns_space space_is_pyspace]
      cases hS : splitRuns (glue (v :: vs)) with
      | nil =>
        have : pySplit (glue (v :: vs)) = [] := by
          unfold pySplit; rw [hS]; rfl
        rw [ih hws'] at this
        simp at this
      | cons u us =>
        simp only [prependW, List.append_nil]
        have hfil : (w :: u :: us).filter (fun x => !x.isEmpty) =
            w :: (u :: us).filter (fun x => !x.isEmpty) := by
          simp [List.filter, hwE]
        rw [hfil, ← hS]
        have : (splitRuns (glue (v :: vs))).filter (fun x => !x.isEmpty) =
            v :: vs := ih hws'
        rw [this]

/-- All whitespace characters of `l` are plain blanks. -/
def BlankOnly (l : List Char) : Prop :=
  ∀ c ∈ l, isPySpace c = true → c = ' '

/-- No two adjacent blanks. -/
def NoDbl (l : List Char) : Prop :=
  l.Chain' (fun a b => ¬(a = ' ' ∧ b = ' '))

/-- The first character, if any, is not whitespace. -/
def HeadOk (l : List Char) : Prop :=
  ∀ c ∈ l.head?, isPySpace c = false

/-- The last character, if any, is not whitespace. -/
def LastOk (l : List Char) : Prop :=
  ∀ c ∈ l.getLast?, isPySpace c = false

/-- Whitespace normal form: only single interior blanks, no edge
whitespace. -/
def NormStr (l : List Char) : Prop :=
  BlankOnly l ∧ NoDbl l ∧ HeadOk l ∧ LastOk l

theorem noDbl_of_nospace {l : List Char}
    (h : ∀ c ∈ l, isPySpace c = false) : NoDbl l := by
  induction l with
  | nil => exact List.chain'_nil
  | cons c rest ih =>
    rw [NoDbl, List.chain'_cons']
    refine ⟨?_, ih (fun x hx => h x (List.mem_cons_of_mem c hx))⟩
    intro y _ hcy
    exact nospace_ne_blank (h c (List.mem_cons_self c rest)) hcy.1

theorem normStr_glue : ∀ ws, WordsP ws → NormStr (glue ws) := by
  intro ws
  induction ws with
  | nil =>
    intro _
    exact ⟨fun c hc => absurd hc (List.not_mem_nil c),
      List.chain'_nil, fun c hc => by simp [glue] at hc,
      fun c hc => by simp [glue] at hc⟩
  | cons w ws' ih =>
    intro hws
    have hw := hws w (List.mem_cons_self w ws')
    cases ws' with
    | nil =>
      show NormStr w
      refine ⟨fun c hc hs => absurd hs (by rw [hw.2 c hc]; simp),
        noDbl_of_nospace hw.2, ?_, ?_⟩
      · intro c hc
        exact hw.2 c (List.mem_of_mem_head? hc)
      · intro c hc
        exact hw.2 c (List.mem_of_mem_getLast? hc)
    | cons v vs =>
      have hws' : WordsP (v :: vs) :=
        fun x hx => hws x (List.mem_cons_of_mem w hx)
      have hG := ih hws'
      have hGne : glue (v :: vs) ≠ [] := glue_ne_nil hws' (List.cons_ne_nil v vs)
      rw [glue_cons (List.cons_ne_nil v vs)]
      refine ⟨?_, ?_, ?_, ?_⟩
      · intro c hc hs
        rcases List.mem_append.mp hc with h | h
        · exact absurd hs (by rw [hw.2 c h]; simp)
        · rcases List.mem_cons.mp h with rfl | h'
          · rfl
          · exact hG.1 c h' hs
      · rw [NoDbl, List.chain'_append]
        refine ⟨noDbl_of_nospace hw.2, ?_, ?_⟩
        · rw [List.chain'_cons']
          refine ⟨?_, hG.2.1⟩
          intro y hy hxy
          exact nospace_ne_blank (hG.2.2.1 y hy) hxy.2
        · intro x hx y hy hxy
          exact nospace_ne_blank (hw.2 x (List.mem_of_mem_getLast? hx)) hxy.1
      · intro c hc
        cases w with
        | nil => exact absurd rfl hw.1
        | cons a as =>
          rw [List.cons_append] at hc
          simp only [List.head?_cons, Option.mem_def, Option.some.injEq] at hc
          subst hc
          exact hw.2 a (List.mem_cons_self a as)
      · intro c hc
        rw [List.getLast?_append_of_ne_nil w (List.cons_ne_nil ' ' _)] at hc
        cases hGl : glue (v :: vs) with
        | nil => exact absurd hGl hGne
        | cons g gs =>
          rw [hGl, List.getLast?_cons_cons] at hc
          apply hG.2.2.2
          rw [hGl]
          exact hc

theorem dropWhile_eq_self_of_head {p : Char → Bool} {l : List Char}
    (h : ∀ c ∈ l.head?, p c = false) : l.dropWhile p = l := by
  cases l with
  | nil => rfl
  | cons c rest =>
    rw [List.dropWhile_cons, if_neg]
    rw [h c (by simp)]
    simp

theorem pyStrip_normStr {t : List Char} (h : NormStr t) : pyStrip t = t := by
  obtain ⟨-, -, hH, hL⟩ := h
  unfold pyStrip
  rw [dropWhile_eq_self_of_head hH]
  rw [dropWhile_eq_self_of_head (fun c hc => hL c (by rwa [List.head?_reverse] at hc))]
  exact List.reverse_reverse t

theorem replaceNL_normStr {t : List Char} (h : NormStr t) : replaceNL t = t := by
  unfold replaceNL
  have : ∀ c ∈ t, (if c = '\n' then ' ' else c) = c := by
    intro c hc
    rw [if_neg]
    intro he
    subst he
    have := h.1 '\n' hc (by decide)
    simp at this
  calc t.map (fun c => if c = '\n' then ' ' else c)
      = t.map id := List.map_congr_left this
    _ = t := List.map_id t

theorem normStr_normalizeWs (l : List Char) : NormStr (normalizeWs l) :=
  normStr_glue _ (words_pySplit (replaceNL l))

theorem normalizeWs_normStr {t : List Char} (h : NormStr t)
    (hd : ∃ ws, WordsP ws ∧ t = glue ws) : normalizeWs t = t := by
  obtain ⟨ws, hws, rfl⟩ := hd
  unfold normalizeWs
  rw [replaceNL_normStr h, pySplit_glue ws hws]

/-! ### The hyphen pass preserves whitespace normal form -/

theorem hyphenFixGo_head : ∀ fuel l, (hyphenFixGo fuel l).head? = l.head? := by
  intro fuel l
  cases fuel with
  | zero => cases l <;> rfl
  | succ n =>
    cases l with
    | nil => rfl
    | cons c rest =>
      by_cases hw : isWordChar c = true
      · cases hm : matchBreak rest with
        | none => simp [hyphenFixGo, hw, hm]
        | some x =>
          obtain ⟨d, r⟩ := x
          simp [hyphenFixGo, hw, hm]
      · simp [hyphenFixGo, hw]

theorem hyphenFixGo_nil_iff {fuel : Nat} {l : List Char} :
    hyphenFixGo fuel l = [] ↔ l = [] := by
  constructor
  · intro h
    have := hyphenFixGo_head fuel l
    rw [h] at this
    exact List.head?_eq_none_iff.mp this.symm
  · intro h
    subst h
    cases fuel <;> rfl

theorem hyphenFixGo_sublist : ∀ fuel l, (hyphenFixGo fuel l).Sublist l := by
  intro fuel
  induction fuel with
  | zero =>
    intro l
    cases l with
    | nil => exact List.Sublist.refl []
    | cons c rest => exact List.Sublist.refl _
  | succ n ih =>
    intro l
    cases l with
    | nil => exact List.Sublist.refl []
    | cons c rest =>
      by_cases hw : isWordChar c = true
      · cases hm : matchBreak rest with
        | none =>
          simp only [hyphenFixGo, hw, if_true, hm]
          exact List.Sublist.cons₂ c (ih rest)
        | some x =>
          obtain ⟨d, r⟩ := x
          obtain ⟨sp, hrest, -, -, -⟩ := matchBreak_eq_some hm
          simp only [hyphenFixGo, hw, if_true, hm]
          rw [hrest]
          refine List.Sublist.cons₂ c (List.Sublist.cons '-' ?_)
          exact List.Sublist.trans (List.Sublist.cons₂ d (ih r))
            (List.sublist_append_right sp (d :: r))
      · simp only [hyphenFixGo, hw, Bool.false_eq_true, if_false]
        exact List.Sublist.cons₂ c (ih rest)

theorem hyphenFixGo_norm : ∀ fuel l, l.length ≤ fuel →
    BlankOnly l → NoDbl l → LastOk l →
    NoDbl (hyphenFixGo fuel l) ∧ LastOk (hyphenFixGo fuel l) := by
  intro fuel
  induction fuel with
  | zero =>
    intro l hlen _ _ _
    have : l = [] := List.length_eq_zero.mp (Nat.le_zero.mp hlen)
    subst this
    exact ⟨List.chain'_nil, fun c hc => by simp [hyphenFixGo] at hc⟩
  | succ n ih =>
    intro l hlen hB hN hL
    cases l with
    | nil => exact ⟨List.chain'_nil, fun c hc => by simp [hyphenFixGo] at hc⟩
    | cons c rest =>
      have hlenr : rest.length ≤ n := by
        simp only [List.length_cons] at hlen
        omega
      by_cases hw : isWordChar c = true
      · cases hm : matchBreak rest with
        | none =>
          simp only [hyphenFixGo, hw, if_true, hm]
          have hBr : BlankOnly rest := fun x hx => hB x (List.mem_cons_of_mem c hx)
          have hNr : NoDbl rest := hN.tail
          have hLr : LastOk rest := by
            intro y hy
            cases rest with
            | nil => simp at hy
            | cons x xs =>
              exact hL y (by rw [List.getLast?_cons_cons]; exact hy)
          obtain ⟨ihN, ihL⟩ := ih rest hlenr hBr hNr hLr
          constructor
          · rw [NoDbl, List.chain'_cons']
            refine ⟨?_, ihN⟩
            intro y hy
            rw [hyphenFixGo_head] at hy
            exact (List.chain'_cons'.mp hN).1 y hy
          · intro y hy
            cases hX : hyphenFixGo n rest with
            | nil =>
              have hre : rest = [] := hyphenFixGo_nil_iff.mp hX
              subst hre
              rw [hX] at hy
              exact hL y hy
            | cons x xs =>
              rw [hX, List.getLast?_cons_cons] at hy
              exact ihL y (by rw [hX]; exact hy)
        | some p =>
          obtain ⟨d, r⟩ := p
          obtain ⟨sp, hrest, hspne, hsp, hd⟩ := matchBreak_eq_some hm
          simp only [hyphenFixGo, hw, if_true, hm]
          have hlenr' : r.length ≤ n := by
            have h5 : rest.length = 1 + (sp.length + (1 + r.length)) := by
              rw [hrest]; simp [List.length_append]; omega
            omega
          have hBr : BlankOnly r := by
            intro x hx
            refine hB x (List.mem_cons_of_mem c ?_)
            rw [hrest]
            exact List.mem_cons_of_mem '-'
              (List.mem_append_right sp (List.mem_cons_of_mem d hx))
          have hNr : NoDbl r := by
            have h1 : List.Chain' (fun a b => ¬(a = ' ' ∧ b = ' ')) rest := hN.tail
            rw [hrest] at h1
            have h2 := h1.tail
            have h3 := (List.chain'_append.mp h2).2.1
            exact h3.tail
          have hLr : LastOk r := by
            intro y hy
            cases r with
            | nil => simp at hy
            | cons x xs =>
              refine hL y ?_
              rw [hrest, List.getLast?_cons_cons,
                show ('-' :: (sp ++ d :: x :: xs)) = ('-' :: sp) ++ d :: x :: xs
                  by simp,
                List.getLast?_append_cons, List.getLast?_cons_cons]
              exact hy
          obtain ⟨ihN, ihL⟩ := ih r hlenr' hBr hNr hLr
          have hcne : c ≠ ' ' := nospace_ne_blank (wordChar_nospace hw)
          have hdne : d ≠ ' ' := nospace_ne_blank (wordChar_nospace hd)
          constructor
          · rw [NoDbl, List.chain'_cons']
            refine ⟨fun y _ hcy => absurd hcy.1 hcne, ?_⟩
            rw [List.chain'_cons']
            exact ⟨fun y _ hdy => absurd hdy.1 hdne, ihN⟩
          · intro y hy
            cases hX : hyphenFixGo n r with
            | nil =>
              rw [hX] at hy
              simp only [List.getLast?_cons_cons, List.getLast?_singleton,
                Option.mem_def, Option.some.injEq] at hy
              subst hy
              exact wordChar_nospace hd
            | cons x xs =>
              rw [hX, List.getLast?_cons_cons, List.getLast?_cons_cons] at hy
              exact ihL y (by rw [hX]; exact hy)
      · simp only [hyphenFixGo, hw, Bool.false_eq_true, if_false]
        have hBr : BlankOnly rest := fun x hx => hB x (List.mem_cons_of_mem c hx)
        have hNr : NoDbl rest := hN.tail
        have hLr : LastOk rest := by
          intro y hy
          cases rest with
          | nil => simp at hy
          | cons x xs =>
            exact hL y (by rw [List.getLast?_cons_cons]; exact hy)
        obtain ⟨ihN, ihL⟩ := ih rest hlenr hBr hNr hLr
        constructor
        · rw [NoDbl, List.chain'_cons']
          refine ⟨?_, ihN⟩
          intro y hy
          rw [hyphenFixGo_head] at hy
          exact (List.chain'_cons'.mp hN).1 y hy
        · intro y hy
          cases hX : hyphenFixGo n rest with
          | nil =>
            have hre : rest = [] := hyphenFixGo_nil_iff.mp hX
            subst hre
            rw [hX] at hy
            exact hL y hy
          | cons x xs =>
            rw [hX, List.getLast?_cons_cons] at hy
            exact ihL y (by rw [hX]; exact hy)

theorem hyphenFix_normStr {l : List Char} (h : NormStr l) :
    NormStr (hyphenFix l) := by
  obtain ⟨hB, hN, hH, hL⟩ := h
  obtain ⟨oN, oL⟩ := hyphenFixGo_norm l.length l (le_refl _) hB hN hL
  refine ⟨?_, oN, ?_, oL⟩
  · intro c hc hs
    exact hB c ((hyphenFixGo_sublist l.length l).subset hc) hs
  · intro c hc
    unfold hyphenFix at hc
    rw [hyphenFixGo_head] at hc
    exact hH c hc

theorem dropWhile_head_false {p : Char → Bool} :
    ∀ {l : List Char} {c : Char} {r : List Char},
      l.dropWhile p = c :: r → p c = false := by
  intro l
  induction l with
  | nil => intro c r h; simp at h
  | cons a as ih =>
    intro c r h
    rw [List.dropWhile_cons] at h
    by_cases ha : p a = true
    · rw [if_pos ha] at h
      exact ih h
    · rw [if_neg ha] at h
      obtain ⟨rfl, -⟩ := List.cons.injEq a as c r ▸ h
      cases hpa : p a
      · rfl
      · exact absurd hpa ha

theorem normStr_decomp : ∀ n t, t.length ≤ n → NormStr t →
    ∃ ws, WordsP ws ∧ t = glue ws := by
  intro n
  induction n with
  | zero =>
    intro t hlen _
    have : t = [] := List.length_eq_zero.mp (Nat.le_zero.mp hlen)
    subst this
    exact ⟨[], fun w hw => absurd hw (List.not_mem_nil w), rfl⟩
  | succ n ih =>
    intro t hlen hns
    cases t with
    | nil => exact ⟨[], fun w hw => absurd hw (List.not_mem_nil w), rfl⟩
    | cons c rest =>
      have hc : isPySpace c = false := hns.2.2.1 c (by simp)
      set W := (c :: rest).takeWhile (fun x => !isPySpace x) with hWdef
      have hsplit : W ++ ((c :: rest).dropWhile (fun x => !isPySpace x)) =
          c :: rest := List.takeWhile_append_dropWhile _ _
      have hwne : W ≠ [] := by
        rw [hWdef, List.takeWhile_cons, if_pos (by simp [hc])]
        exact List.cons_ne_nil _ _
      have hwsp : ∀ x ∈ W, isPySpace x = false := by
        intro x hx
        rw [hWdef] at hx
        have := List.mem_takeWhile_imp hx
        simpa using this
      cases hrr : (c :: rest).dropWhile (fun x => !isPySpace x) with
      | nil =>
        refine ⟨[W], ?_, ?_⟩
        · intro v hv
          rcases List.mem_singleton.mp hv with rfl
          exact ⟨hwne, hwsp⟩
        · show c :: rest = glue [W]
          rw [show glue [W] = W from rfl, ← hsplit, hrr, List.append_nil]
      | cons s r' =>
        have hs_space : isPySpace s = true := by
          have := dropWhile_head_false hrr
          simpa using this
        have hteq : c :: rest = W ++ s :: r' := by
          rw [← hsplit, hrr]
        have hs_blank : s = ' ' := by
          refine hns.1 s ?_ hs_space
          rw [hteq]
          exact List.mem_append_right _ (List.mem_cons_self s r')
        have hr'ne : r' ≠ [] := by
          intro he
          subst he
          have hgl : (c :: rest).getLast? = some s := by
            rw [hteq]
            exact List.getLast?_concat _
          have hfalse := hns.2.2.2 s (by rw [hgl]; rfl)
          simp [hs_space] at hfalse
        have h_chain2 : List.Chain' (fun a b => ¬(a = ' ' ∧ b = ' '))
            (W ++ s :: r') := hteq ▸ hns.2.1
        have h_app := List.chain'_append.mp h_chain2
        have hNr' : NoDbl r' := h_app.2.1.tail
        have hHr' : HeadOk r' := by
          intro y hy
          have hRz := (List.chain'_cons'.mp h_app.2.1).1 y hy
          have hyne : y ≠ ' ' := fun he => hRz ⟨hs_blank, he⟩
          cases hy2 : isPySpace y
          · rfl
          · have hmem : y ∈ c :: rest := by
              rw [hteq]
              exact List.mem_append_right _
                (List.mem_cons_of_mem s (List.mem_of_mem_head? hy))
            exact absurd (hns.1 y hmem hy2) hyne
        have hLr' : LastOk r' := by
          intro y hy
          refine hns.2.2.2 y ?_
          rw [hteq, List.getLast?_append_cons]
          cases r' with
          | nil => exact absurd rfl hr'ne
          | cons a as =>
            rw [List.getLast?_cons_cons]
            exact hy
        have hr'B : BlankOnly r' := by
          intro x hx
          refine hns.1 x ?_
          rw [hteq]
          exact List.mem_append_right _ (List.mem_cons_of_mem s hx)
        have hlen' : r'.length ≤ n := by
          have h6 : (c :: rest).length = W.length + (1 + r'.length) := by
            rw [hteq]
            simp [List.length_append]
            omega
          have h7 : 1 ≤ W.length := by
            cases hW : W with
            | nil => exact absurd hW hwne
            | cons a as => simp
          simp only [List.length_cons] at hlen h6
          omega
        obtain ⟨ws', hws', heq'⟩ := ih r' hlen' ⟨hr'B, hNr', hHr', hLr'⟩
        have hws'ne : ws' ≠ [] := by
          intro he
          subst he
          exact hr'ne heq'
        refine ⟨W :: ws', ?_, ?_⟩
        · intro v hv
          rcases List.mem_cons.mp hv with rfl | hv'
          · exact ⟨hwne, hwsp⟩
          · exact hws' v hv'
        · rw [glue_cons hws'ne, ← heq', hteq, hs_blank]

theorem clean_text_eq_strip_hyphen (l : List Char) :
    clean_text l = pyStrip (hyphenFix (normalizeWs l)) := by
  unfold clean_text
  rw [wordGapFix_id]

theorem normStr_clean_text (l : List Char) : NormStr (clean_text l) := by
  rw [clean_text_eq_strip_hyphen l]
  have h := hyphenFix_normStr (normStr_normalizeWs l)
  rw [pyStrip_normStr h]
  exact h

/-! ### Characterization of the assembly loop -/

/-- Key-deduplication alone: keep the first candidate of each
`(lowercased text, page)` key, leveled or not. -/
def dedupKeyGo : List Cand → List (List Char × Nat) → List Cand
  | [], _ => []
  | c :: rest, seen =>
    if keyOf c ∈ seen then dedupKeyGo rest seen
    else c :: dedupKeyGo rest (keyOf c :: seen)

/-- Key-deduplication of a candidate list. -/
def dedupKey (cands : List Cand) : List Cand :=
  dedupKeyGo cands []

/-- Level classification of one surviving candidate. -/
def emitHeading (thr : ThresholdTable) (ts : Option ℚ) (c : Cand) :
    Option Heading :=
  (detect_heading_level c.size thr ts).map (fun lv => ⟨lv, c.text, c.page⟩)

theorem assembleGo_eq_dedup (thr : ThresholdTable) (ts : Option ℚ) :
    ∀ cands seen, assembleGo thr ts cands seen =
      (dedupKeyGo cands seen).filterMap (emitHeading thr ts) := by
  intro cands
  induction cands with
  | nil => intro seen; rfl
  | cons c rest ih =>
    intro seen
    by_cases hk : keyOf c ∈ seen
    · simp [assembleGo, dedupKeyGo, hk, ih]
    · cases hd : detect_heading_level c.size thr ts with
      | some lv =>
        simp [assembleGo, dedupKeyGo, hk, hd, ih, emitHeading,
          List.filterMap_cons]
      | none =>
        simp [assembleGo, dedupKeyGo, hk, hd, ih, emitHeading,
          List.filterMap_cons]

theorem assembleGo_mem {thr : ThresholdTable} {ts : Option ℚ} :
    ∀ {cands seen h}, h ∈ assembleGo thr ts cands seen →
      ∃ c ∈ cands, h.text = c.text ∧ h.page = c.page ∧
        detect_heading_level c.size thr ts = some h.level := by
  intro cands
  induction cands with
  | nil => intro seen h hh; simp [assembleGo] at hh
  | cons c rest ih =>
    intro seen h hh
    by_cases hk : keyOf c ∈ seen
    · rw [show assembleGo thr ts (c :: rest) seen =
        assembleGo thr ts rest seen by simp [assembleGo, hk]] at hh
      obtain ⟨c', hc', hp⟩ := ih hh
      exact ⟨c', List.mem_cons_of_mem c hc', hp⟩
    · cases hd : detect_heading_level c.size thr ts with
      | some lv =>
        rw [show assembleGo thr ts (c :: rest) seen =
            ⟨lv, c.text, c.page⟩ ::
              assembleGo thr ts rest (keyOf c :: seen) by
          simp [assembleGo, hk, hd]] at hh
        rcases List.mem_cons.mp hh with rfl | hh'
        · exact ⟨c, List.mem_cons_self c rest, rfl, rfl, hd⟩
        · obtain ⟨c', hc', hp⟩ := ih hh'
          exact ⟨c', List.mem_cons_of_mem c hc', hp⟩
      | none =>
        rw [show assembleGo thr ts (c :: rest) seen =
            assembleGo thr ts rest (keyOf c :: seen) by
          simp [assembleGo, hk, hd]] at hh
        obtain ⟨c', hc', hp⟩ := ih hh
        exact ⟨c', List.mem_cons_of_mem c hc', hp⟩

theorem assembleGo_keys :
    ∀ {thr ts} cands seen,
      (∀ h ∈ assembleGo thr ts cands seen, headingKey h ∉ seen) ∧
      (assembleGo thr ts cands seen).Pairwise
        (fun a b => headingKey a ≠ headingKey b) := by
  intro thr ts cands
  induction cands with
  | nil =>
    intro seen
    exact ⟨fun h hh => by simp [assembleGo] at hh, List.Pairwise.nil⟩
  | cons c rest ih =>
    intro seen
    by_cases hk : keyOf c ∈ seen
    · rw [show assembleGo thr ts (c :: rest) seen =
        assembleGo thr ts rest seen by simp [assembleGo, hk]]
      exact ih seen
    · cases hd : detect_heading_level c.size thr ts with
      | some lv =>
        rw [show assembleGo thr ts (c :: rest) seen =
            ⟨lv, c.text, c.page⟩ ::
              assembleGo thr ts rest (keyOf c :: seen) by
          simp [assembleGo, hk, hd]]
        obtain ⟨ihK, ihP⟩ := ih (keyOf c :: seen)
        have hck : headingKey ⟨lv, c.text, c.page⟩ = keyOf c := rfl
        constructor
        · intro h hh
          rcases List.mem_cons.mp hh with rfl | hh'
          · rw [hck]; exact hk
          · intro hmem
            exact ihK h hh' (List.mem_cons_of_mem _ hmem)
        · rw [List.pairwise_cons]
          refine ⟨?_, ihP⟩
          intro h hh heq
          exact ihK h hh (by rw [← heq, hck]; exact List.mem_cons_self _ _)
      | none =>
        rw [show assembleGo thr ts (c :: rest) seen =
            assembleGo thr ts rest (keyOf c :: seen) by
          simp [assembleGo, hk, hd]]
        obtain ⟨ihK, ihP⟩ := ih (keyOf c :: seen)
        exact ⟨fun h hh hmem => ihK h hh (List.mem_cons_of_mem _ hmem), ihP⟩

theorem assembleGo_sublist {thr : ThresholdTable} {ts : Option ℚ} :
    ∀ cands seen,
      ((assembleGo thr ts cands seen).map (fun h => (h.text, h.page))).Sublist
        (cands.map (fun c => (c.text, c.page))) := by
  intro cands
  induction cands with
  | nil => intro seen; exact List.Sublist.refl []
  | cons c rest ih =>
    intro seen
    by_cases hk : keyOf c ∈ seen
    · rw [show assembleGo thr ts (c :: rest) seen =
        assembleGo thr ts rest seen by simp [assembleGo, hk]]
      exact List.Sublist.cons _ (ih seen)
    · cases hd : detect_heading_level c.size thr ts with
      | some lv =>
        rw [show assembleGo thr ts (c :: rest) seen =
            ⟨lv, c.text, c.page⟩ ::
              assembleGo thr ts rest (keyOf c :: seen) by
          simp [assembleGo, hk, hd]]
        rw [List.map_cons, List.map_cons]
        exact List.Sublist.cons₂ _ (ih (keyOf c :: seen))
      | none =>
        rw [show assembleGo thr ts (c :: rest) seen =
            assembleGo thr ts rest (keyOf c :: seen) by
          simp [assembleGo, hk, hd]]
        exact List.Sublist.cons _ (ih (keyOf c :: seen))

/-! ### Properties of the grouper -/

theorem groupGo_sizePage_sublist :
    ∀ (l : List Cand) (g : Cand),
      ((groupGo g l).map (fun c => (c.size, c.page))).Sublist
        ((g :: l).map (fun c => (c.size, c.page))) := by
  intro l
  induction l with
  | nil => intro g; exact List.Sublist.refl _
  | cons c rest ih =>
    intro g
    by_cases hm : shouldMerge g c = true
    · rw [show groupGo g (c :: rest) =
        groupGo ⟨g.size, joinTexts g.text c.text, g.page⟩ rest by
          simp [groupGo, hm]]
      refine List.Sublist.trans (ih ⟨g.size, joinTexts g.text c.text, g.page⟩) ?_
      rw [List.map_cons, List.map_cons, List.map_cons]
      exact List.Sublist.cons₂ _ (List.Sublist.cons _ (List.Sublist.refl _))
    · rw [show groupGo g (c :: rest) = g :: groupGo c rest by
        simp [groupGo, hm]]
      rw [List.map_cons, List.map_cons]
      exact List.Sublist.cons₂ _ (ih c)

theorem group_multiline_sizePage_sublist (l : List Cand) :
    ((group_multiline_headings l).map (fun c => (c.size, c.page))).Sublist
      (l.map (fun c => (c.size, c.page))) := by
  cases l with
  | nil => exact List.Sublist.refl _
  | cons c rest => exact groupGo_sizePage_sublist rest c

/-- The text property preserved by grouping: length above 3 and at least
one non-whitespace character. -/
def GoodText (t : List Char) : Prop :=
  3 < t.length ∧ ∃ x ∈ t, isPySpace x = false

theorem joinTexts_goodText {gt ct : List Char} (h : GoodText ct) :
    GoodText (joinTexts gt ct) := by
  obtain ⟨hlen, x, hx, hxs⟩ := h
  unfold joinTexts
  split
  · refine ⟨?_, x, List.mem_append_right _ hx, hxs⟩
    rw [List.length_append]
    omega
  · refine ⟨?_, x, List.mem_append_right _ (List.mem_cons_of_mem ' ' hx), hxs⟩
    rw [List.length_append]
    simp only [List.length_cons]
    omega

theorem groupGo_goodText :
    ∀ (l : List Cand) (g : Cand), GoodText g.text →
      (∀ c ∈ l, GoodText c.text) →
      ∀ o ∈ groupGo g l, GoodText o.text := by
  intro l
  induction l with
  | nil =>
    intro g hg _ o ho
    rcases List.mem_singleton.mp ho with rfl
    exact hg
  | cons c rest ih =>
    intro g hg hl o ho
    by_cases hm : shouldMerge g c = true
    · rw [show groupGo g (c :: rest) =
        groupGo ⟨g.size, joinTexts g.text c.text, g.page⟩ rest by
          simp [groupGo, hm]] at ho
      refine ih _ ?_ (fun x hx => hl x (List.mem_cons_of_mem c hx)) o ho
      exact joinTexts_goodText (hl c (List.mem_cons_self c rest))
    · rw [show groupGo g (c :: rest) = g :: groupGo c rest by
        simp [groupGo, hm]] at ho
      rcases List.mem_cons.mp ho with rfl | ho'
      · exact hg
      · exact ih c (hl c (List.mem_cons_self c rest))
          (fun x hx => hl x (List.mem_cons_of_mem c hx)) o ho'

theorem group_multiline_goodText {l : List Cand}
    (h : ∀ c ∈ l, GoodText c.text) :
    ∀ o ∈ group_multiline_headings l, GoodText o.text := by
  cases l with
  | nil => intro o ho; simp [group_multiline_headings] at ho
  | cons c rest =>
    exact groupGo_goodText rest c (h c (List.mem_cons_self c rest))
      (fun x hx => h x (List.mem_cons_of_mem c hx))

/-! ### Properties of the candidate collector -/

theorem lineCandidate_some {n : Nat} {ln : Line} {c : Cand}
    (h : lineCandidate n ln = some c) :
    c.page = n ∧ (∃ t, c.text = clean_text t) ∧ c.text ≠ [] ∧
      3 < c.text.length ∧
      c.size = (ln.spans.foldl
        (fun (acc : ℚ × List (List Char)) sp =>
          let text := clean_text sp.text
          let size := round1 sp.size
          if is_noisy text then acc
          else ((if acc.1 < size then size else acc.1), acc.2 ++ [text]))
        (0, [])).1 := by
  unfold lineCandidate at h
  dsimp only at h
  split at h
  · rename_i hcond
    obtain ⟨h1, h2, h3⟩ := hcond
    rw [Option.some.injEq] at h
    subst h
    exact ⟨rfl, ⟨_, rfl⟩, h1, h2, rfl⟩
  · exact absurd h (by simp)

theorem foldl_size_nonneg :
    ∀ (spans : List Span) (init : ℚ × List (List Char)), 0 ≤ init.1 →
      0 ≤ (spans.foldl
        (fun (acc : ℚ × List (List Char)) sp =>
          let text := clean_text sp.text
          let size := round1 sp.size
          if is_noisy text then acc
          else ((if acc.1 < size then size else acc.1), acc.2 ++ [text]))
        init).1 := by
  intro spans
  induction spans with
  | nil => intro init h; exact h
  | cons sp rest ih =>
    intro init h
    rw [List.foldl_cons]
    apply ih
    by_cases hn : is_noisy (clean_text sp.text) = true
    · simpa [hn] using h
    · simp only [hn, Bool.false_eq_true, if_false]
      by_cases hlt : init.1 < round1 sp.size
      · simp only [hlt, if_true]
        exact le_of_lt (lt_of_le_of_lt h hlt)
      · simpa [hlt] using h

theorem clean_text_has_nonspace {t : List Char} (h : clean_text t ≠ []) :
    ∃ x ∈ clean_text t, isPySpace x = false := by
  cases hx : clean_text t with
  | nil => exact absurd hx h
  | cons a as =>
    refine ⟨a, List.mem_cons_self a as, ?_⟩
    have := (normStr_clean_text t).2.2.1
    rw [hx] at this
    exact this a rfl

theorem pageCandidates_mem {n : Nat} {pg : PdfPage} {c : Cand}
    (h : c ∈ pageCandidates n pg) :
    c.page = n ∧ GoodText c.text ∧ 0 ≤ c.size := by
  unfold pageCandidates at h
  obtain ⟨b, -, hb⟩ := List.mem_flatMap.mp h
  obtain ⟨ln, -, hln⟩ := List.mem_filterMap.mp hb
  obtain ⟨hp, ⟨t, ht⟩, hne, hlen, hsz⟩ := lineCandidate_some hln
  refine ⟨hp, ⟨hlen, ?_⟩, ?_⟩
  · rw [ht]
    exact clean_text_has_nonspace (ht ▸ hne)
  · rw [hsz]
    exact foldl_size_nonneg _ (0, []) (le_refl 0)

theorem collectFrom_page_ge :
    ∀ (pages : List PdfPage) (n : Nat) (c : Cand),
      c ∈ collectFrom n pages → n ≤ c.page := by
  intro pages
  induction pages with
  | nil => intro n c h; simp [collectFrom] at h
  | cons pg rest ih =>
    intro n c h
    rcases List.mem_append.mp h with h' | h'
    · rw [(pageCandidates_mem h').1]
    · exact Nat.le_of_succ_le (ih (n + 1) c h')

theorem collectFrom_pages_pairwise :
    ∀ (pages : List PdfPage) (n : Nat),
      (collectFrom n pages).Pairwise (fun a b => a.page ≤ b.page) := by
  intro pages
  induction pages with
  | nil => intro n; exact List.Pairwise.nil
  | cons pg rest ih =>
    intro n
    rw [collectFrom, List.pairwise_append]
    refine ⟨?_, ih (n + 1), ?_⟩
    · refine List.pairwise_of_forall_mem_list ?_
      intro a ha b hb
      rw [(pageCandidates_mem ha).1, (pageCandidates_mem hb).1]
    · intro a ha b hb
      rw [(pageCandidates_mem ha).1]
      exact Nat.le_of_succ_le (collectFrom_page_ge rest (n + 1) b hb)

theorem collectFrom_goodText :
    ∀ (pages : List PdfPage) (n : Nat) (c : Cand),
      c ∈ collectFrom n pages → GoodText c.text ∧ 0 ≤ c.size := by
  intro pages
  induction pages with
  | nil => intro n c h; simp [collectFrom] at h
  | cons pg rest ih =>
    intro n c h
    rcases List.mem_append.mp h with h' | h'
    · exact ⟨(pageCandidates_mem h').2.1, (pageCandidates_mem h').2.2⟩
    · exact ih (n + 1) c h'

/-! ### Properties of the distinct-size sort -/

theorem insertDesc_ne_nil (x : ℚ) (l : List ℚ) : insertDesc x l ≠ [] := by
  cases l with
  | nil => simp [insertDesc]
  | cons y ys =>
    unfold insertDesc
    by_cases h1 : y < x
    · simp [h1]
    · by_cases h2 : x = y
      · simp [h1, h2]
      · simp [h1, h2]

theorem mem_insertDesc {a x : ℚ} : ∀ {l : List ℚ},
    a ∈ insertDesc x l → a = x ∨ a ∈ l := by
  intro l
  induction l with
  | nil =>
    intro h
    rcases List.mem_singleton.mp h with rfl
    exact Or.inl rfl
  | cons y ys ih =>
    intro h
    unfold insertDesc at h
    by_cases h1 : y < x
    · rw [if_pos h1] at h
      rcases List.mem_cons.mp h with rfl | h'
      · exact Or.inl rfl
      · exact Or.inr h'
    · rw [if_neg h1] at h
      by_cases h2 : x = y
      · rw [if_pos h2] at h
        exact Or.inr h
      · rw [if_neg h2] at h
        rcases List.mem_cons.mp h with rfl | h'
        · exact Or.inr (List.mem_cons_self a ys)
        · rcases ih h' with h'' | h''
          · exact Or.inl h''
          · exact Or.inr (List.mem_cons_of_mem y h'')

theorem insertDesc_sorted {x : ℚ} : ∀ {l : List ℚ},
    l.Pairwise (fun a b => b < a) → (insertDesc x l).Pairwise (fun a b => b < a) := by
  intro l
  induction l with
  | nil => intro _; simp [insertDesc]
  | cons y ys ih =>
    intro hp
    obtain ⟨hy, hys⟩ := List.pairwise_cons.mp hp
    unfold insertDesc
    by_cases h1 : y < x
    · rw [if_pos h1, List.pairwise_cons]
      refine ⟨?_, hp⟩
      intro b hb
      rcases List.mem_cons.mp hb with rfl | hb'
      · exact h1
      · exact lt_trans (hy b hb') h1
    · rw [if_neg h1]
      by_cases h2 : x = y
      · rw [if_pos h2]
        exact hp
      · rw [if_neg h2, List.pairwise_cons]
        have hxy : x < y := lt_of_le_of_ne (not_lt.mp h1) h2
        refine ⟨?_, ih hys⟩
        intro b hb
        rcases mem_insertDesc hb with rfl | hb'
        · exact hxy
        · exact hy b hb'

theorem uniqueDesc_facts (l : List ℚ) :
    (uniqueDesc l).Pairwise (fun a b => b < a) ∧
      (∀ x ∈ uniqueDesc l, x ∈ l) ∧ (l ≠ [] → uniqueDesc l ≠ []) := by
  suffices h : ∀ (l : List ℚ) (acc : List ℚ),
      acc.Pairwise (fun a b => b < a) →
      (l.foldl (fun a x => insertDesc x a) acc).Pairwise (fun a b => b < a) ∧
      (∀ y ∈ l.foldl (fun a x => insertDesc x a) acc, y ∈ acc ∨ y ∈ l) ∧
      (acc ≠ [] ∨ l ≠ [] → l.foldl (fun a x => insertDesc x a) acc ≠ []) by
    obtain ⟨h1, h2, h3⟩ := h l [] List.Pairwise.nil
    refine ⟨h1, ?_, fun hne => h3 (Or.inr hne)⟩
    intro x hx
    rcases h2 x hx with h' | h'
    · simp at h'
    · exact h'
  intro l
  induction l with
  | nil =>
    intro acc hacc
    exact ⟨hacc, fun y hy => Or.inl hy, fun h => by
      rcases h with h | h
      · exact h
      · exact absurd rfl h⟩
  | cons x xs ih =>
    intro acc hacc
    rw [List.foldl_cons]
    obtain ⟨ih1, ih2, ih3⟩ := ih (insertDesc x acc) (insertDesc_sorted hacc)
    refine ⟨ih1, ?_, fun _ => ih3 (Or.inl (insertDesc_ne_nil x acc))⟩
    intro y hy
    rcases ih2 y hy with h' | h'
    · rcases mem_insertDesc h' with rfl | h''
      · exact Or.inr (List.mem_cons_self y xs)
      · exact Or.inl h''
    · exact Or.inr (List.mem_cons_of_mem x h')

/-! ### Spec-side formulation of the grouper step -/

/-- The merge condition as the spec words it: same rounded size, same page,
and the new text starts with a lowercase letter, or the current group's
last word has at most 3 characters, or the new text's first word has at
most 3 characters. -/
def specMergeCond (g c : Cand) : Prop :=
  c.size = g.size ∧ c.page = g.page ∧
  ((∃ a t, c.text = a :: t ∧ a.isLower = true) ∨
    (lastWord g.text).length ≤ 3 ∨ (firstWord c.text).length ≤ 3)

/-- The broken-word join trigger as the spec words it: the group's text
ends with a hyphen, or its last word has at most 2 characters, or the
incoming text's first word has at most 2 characters. -/
def specBrokenWord (gt ct : List Char) : Prop :=
  (∃ i, gt = i ++ ['-']) ∨ (lastWord gt).length ≤ 2 ∨ (firstWord ct).length ≤ 2

theorem endswith_dash_iff {gt : List Char} :
    (gt.getLastD ' ' == '-') = true ↔ ∃ i, gt = i ++ ['-'] := by
  constructor
  · intro h
    rw [beq_iff_eq] at h
    rcases List.eq_nil_or_concat gt with rfl | ⟨i, a, rfl⟩
    · simp at h
    · rw [List.concat_eq_append] at h ⊢
      rw [List.getLastD_concat] at h
      exact ⟨i, by rw [h]⟩
  · rintro ⟨i, rfl⟩
    rw [beq_iff_eq, List.getLastD_concat]

theorem joinCond_iff {gt ct : List Char} :
    (gt.getLastD ' ' == '-' || decide ((lastWord gt).length ≤ 2) ||
      decide ((firstWord ct).length ≤ 2)) = true ↔ specBrokenWord gt ct := by
  rw [specBrokenWord, Bool.or_eq_true, Bool.or_eq_true, decide_eq_true_iff,
    decide_eq_true_iff, endswith_dash_iff, or_assoc]

theorem shouldMerge_iff {g c : Cand} (hct : c.text ≠ []) :
    shouldMerge g c = true ↔ specMergeCond g c := by
  cases hx : c.text with
  | nil => exact absurd hx hct
  | cons a t =>
    unfold shouldMerge specMergeCond
    rw [hx]
    simp only [List.headD_cons, Bool.and_eq_true, Bool.or_eq_true,
      decide_eq_true_iff, List.cons.injEq]
    constructor
    · rintro ⟨⟨h1, h2⟩, (h3 | h3) | h3⟩
      · exact ⟨h1, h2, Or.inl ⟨a, t, ⟨rfl, rfl⟩, h3⟩⟩
      · exact ⟨h1, h2, Or.inr (Or.inl h3)⟩
      · exact ⟨h1, h2, Or.inr (Or.inr h3)⟩
    · rintro ⟨h1, h2, ⟨a', t', ⟨rfl, rfl⟩, h3⟩ | h3 | h3⟩
      · exact ⟨⟨h1, h2⟩, Or.inl (Or.inl h3)⟩
      · exact ⟨⟨h1, h2⟩, Or.inl (Or.inr h3)⟩
      · exact ⟨⟨h1, h2⟩, Or.inr h3⟩

/-! ### Concrete sample documents -/

/-- A two-size one-page document: a size-20 title line and a size-16
heading line. -/
def sampleDocA : List PdfPage :=
  [[⟨0, [⟨[⟨"General Overview Document".toList, 20⟩]⟩]⟩,
    ⟨100, [⟨[⟨"Getting Started".toList, 16⟩]⟩]⟩]]

/-- A single-size one-page document: every span has size 12, and page 1
has title-eligible text. -/
def sampleDocB : List PdfPage :=
  [[⟨0, [⟨[⟨"Simple Plain Document".toList, 12⟩]⟩]⟩,
    ⟨50, [⟨[⟨"Another Line Here".toList, 12⟩]⟩]⟩]]

/-! ### Claim C1 -/

/-- Claim C1 counterexample: `clean_text` is not idempotent.  On
`"a- b- c"` the first pass repairs the break `"a- b"` and resumes scanning
after the consumed `"b"`, leaving `"ab- c"`; a second application repairs
the remaining break and yields `"abc"`. -/
theorem claim_C1_counterexample :
    clean_text (clean_text "a- b- c".toList) ≠ clean_text "a- b- c".toList := by
  decide

/-- Claim C1, amended: `clean_text` is idempotent at a string `s` if and
only if the hyphen-break repair pass leaves `clean_text s` unchanged (in
particular it is idempotent at every input whose cleaned output contains
no hyphen-break); chained hyphen breaks such as `"a- b- c"` violate
unconditional idempotence.  The proof shows
`clean_text (clean_text s) = hyphenFix (clean_text s)`: on the
whitespace-normal cleaned output a second application performs exactly one
more hyphen-repair pass, so the second application is the identity exactly
when that pass is. -/
theorem claim_C1_theorem (s : List Char) :
    clean_text (clean_text s) = clean_text s ↔
      hyphenFix (clean_text s) = clean_text s := by
  have hn := normStr_clean_text s
  have hd := normStr_decomp (clean_text s).length (clean_text s) (le_refl _) hn
  have hkey : clean_text (clean_text s) = hyphenFix (clean_text s) := by
    rw [clean_text_eq_strip_hyphen, normalizeWs_normStr hn hd,
      pyStrip_normStr (hyphenFix_normStr hn)]
  rw [hkey]

/-! ### Claim C2 -/

/-- Claim C2 counterexample: a candidate whose size classifies to H1 is
dropped even though no earlier heading with its `(lowercased text, page)`
pair was emitted into the outline — the earlier title-sized candidate
(classified to no level) already consumed the key, so the outline is
empty. -/
theorem claim_C2_counterexample :
    detect_heading_level 10 ⟨10, 8, 6⟩ (some 12) = some HLevel.H1 ∧
      assembleOutline
        [⟨12, "overview notes".toList, 1⟩, ⟨10, "overview notes".toList, 1⟩]
        ⟨10, 8, 6⟩ (some 12) = [] := by
  constructor
  · decide
  · decide

/-- Claim C2, amended: during final assembly the `(lowercased text, page)`
key of every walked candidate is recorded, whether or not the candidate
classifies to a level; a leveled candidate is emitted iff no earlier
candidate — emitted or not — carried the same key.  Equivalently, the
assembled outline is the level classification mapped over the
key-deduplicated candidate sequence. -/
theorem claim_C2_theorem (cands : List Cand) (thr : ThresholdTable)
    (ts : Option ℚ) :
    assembleOutline cands thr ts =
      (dedupKey cands).filterMap (emitHeading thr ts) :=
  assembleGo_eq_dedup thr ts cands []

/-! ### Claim C3 -/

/-- Claim C3 counterexample: a space separating two word characters whose
surrounding fragments both exceed 2 characters is not merged —
`"unders tanding"` is returned unchanged rather than merged to
`"understanding"`. -/
theorem claim_C3_counterexample :
    clean_text "unders tanding".toList = "unders tanding".toList ∧
      clean_text "unders tanding".toList ≠ "understanding".toList := by
  constructor
  · decide
  · decide

/-- Claim C3, amended: the no-hyphen repair substitution never merges
anything.  Its merge condition compares the lengths of the two captured
groups, which are single characters of length 1, so it is vacuously false;
the pass is the identity and `clean_text` reduces to whitespace
normalization, hyphen-break repair and the final strip. -/
theorem claim_C3_theorem :
    (∀ l, wordGapFix l = l) ∧
      ∀ l, clean_text l = pyStrip (hyphenFix (normalizeWs l)) :=
  ⟨wordGapFix_id, clean_text_eq_strip_hyphen⟩

/-! ### Claim C4 -/

/-- Claim C4: for every nonempty multiset of candidate font sizes (candidate
sizes are nonnegative by construction: the per-line maximum starts at 0),
the derived threshold table is monotonically non-increasing, H1 ≥ H2 ≥ H3,
including the fallback branches `unique[0] * 0.85` and `unique[-1] * 0.7`
taken when fewer than two or three distinct sizes exist. -/
theorem claim_C4_theorem (sizes : List ℚ) (hne : sizes ≠ [])
    (hpos : ∀ s ∈ sizes, 0 ≤ s) :
    (mkThresholds (uniqueDesc sizes)).h3 ≤ (mkThresholds (uniqueDesc sizes)).h2 ∧
      (mkThresholds (uniqueDesc sizes)).h2 ≤ (mkThresholds (uniqueDesc sizes)).h1 := by
  obtain ⟨hsort, hmem, hnef⟩ := uniqueDesc_facts sizes
  cases hu : uniqueDesc sizes with
  | nil => exact absurd hu (hnef hne)
  | cons a u1 =>
    have ha : 0 ≤ a := hpos a (hmem a (hu ▸ List.mem_cons_self a u1))
    rw [hu] at hsort
    cases u1 with
    | nil =>
      simp only [mkThresholds, List.headD_cons, List.length_cons,
        List.length_nil]
      norm_num
      simp only [qMul_eq]
      constructor
      · nlinarith
      · nlinarith
    | cons b u2 =>
      have hb : 0 ≤ b :=
        hpos b (hmem b (hu ▸ List.mem_cons_of_mem a (List.mem_cons_self b u2)))
      have hba : b < a := (List.pairwise_cons.mp hsort).1 b
        (List.mem_cons_self b u2)
      cases u2 with
      | nil =>
        simp only [mkThresholds, List.headD_cons, List.length_cons,
          List.length_nil]
        norm_num
        simp only [qMul_eq]
        constructor
        · nlinarith
        · exact le_of_lt hba
      | cons e u3 =>
        have hcb : e < b :=
          (List.pairwise_cons.mp (List.pairwise_cons.mp hsort).2).1 e
            (List.mem_cons_self e u3)
        simp only [mkThresholds, List.headD_cons, List.length_cons]
        norm_num
        exact ⟨le_of_lt hcb, le_of_lt hba⟩

/-- Claim C4 witness: the hypotheses and the threshold ordering hold at the
concrete singleton size list `[12]`, which exercises both fallback
branches. -/
theorem claim_C4_witness :
    (([12] : List ℚ) ≠ [] ∧ ∀ s ∈ ([12] : List ℚ), 0 ≤ s) ∧
      ((mkThresholds (uniqueDesc [12])).h3 ≤ (mkThresholds (uniqueDesc [12])).h2 ∧
        (mkThresholds (uniqueDesc [12])).h2 ≤ (mkThresholds (uniqueDesc [12])).h1) :=
  ⟨⟨by decide, by decide⟩, claim_C4_theorem [12] (by decide) (by decide)⟩

/-! ### Outline-level helpers -/

theorem detect_some_not_title {size : ℚ} {thr : ThresholdTable}
    {ts : Option ℚ} {lv : HLevel}
    (h : detect_heading_level size thr ts = some lv) :
    eqTitleSize size ts = false := by
  cases he : eqTitleSize size ts
  · rfl
  · unfold detect_heading_level at h
    rw [if_pos he] at h
    exact absurd h (by simp)

theorem extract_outline_outline (fallback : List Char) (pages : List PdfPage) :
    (extract_outline fallback pages).outline =
      outlineOf (extract_title (pages.headD [])).2
        (group_multiline_headings (collectFrom 1 pages)) := rfl

theorem outlineOf_mem {ts : Option ℚ} {grouped : List Cand} {h : Heading}
    (hh : h ∈ outlineOf ts grouped) :
    ∃ c ∈ grouped, h.text = c.text ∧ h.page = c.page ∧
      eqTitleSize c.size ts = false ∧
      ∃ thr, detect_heading_level c.size thr ts = some h.level := by
  unfold outlineOf at hh
  split at hh
  · simp at hh
  · dsimp only at hh
    split at hh
    · simp at hh
    · obtain ⟨c, hc, h1, h2, h3⟩ := assembleGo_mem hh
      exact ⟨c, hc, h1, h2, detect_some_not_title h3, _, h3⟩

/-! ### Claim C5 -/

/-- Claim C5: when a title font size is detected on page 1,
`detect_heading_level` returns no level for that size, and every heading of
the final outline traces back to a grouped candidate whose size differs
from the title size. -/
theorem claim_C5_theorem (fallback : List Char) (pages : List PdfPage)
    (t : List Char) (ts : ℚ)
    (hdet : extract_title (pages.headD []) = (t, some ts)) :
    (∀ thr : ThresholdTable, detect_heading_level ts thr (some ts) = none) ∧
      ∀ h ∈ (extract_outline fallback pages).outline,
        ∃ c ∈ group_multiline_headings (collectFrom 1 pages),
          h.text = c.text ∧ h.page = c.page ∧ c.size ≠ ts := by
  constructor
  · intro thr
    unfold detect_heading_level
    rw [if_pos (by simp [eqTitleSize])]
  · intro h hh
    rw [extract_outline_outline] at hh
    obtain ⟨c, hc, h1, h2, h3, -⟩ := outlineOf_mem hh
    refine ⟨c, hc, h1, h2, ?_⟩
    rw [hdet] at h3
    intro he
    rw [he] at h3
    simp [eqTitleSize] at h3

/-- Claim C5 witness: on the two-size sample document a title of size 20 is
detected carrying every stated consequence. -/
theorem claim_C5_witness :
    extract_title (sampleDocA.headD []) =
        ("General Overview Document".toList, some 20) ∧
      ((∀ thr : ThresholdTable, detect_heading_level 20 thr (some 20) = none) ∧
        ∀ h ∈ (extract_outline "docA".toList sampleDocA).outline,
          ∃ c ∈ group_multiline_headings (collectFrom 1 sampleDocA),
            h.text = c.text ∧ h.page = c.page ∧ c.size ≠ 20) :=
  ⟨by decide, claim_C5_theorem "docA".toList sampleDocA
    "General Overview Document".toList 20 (by decide)⟩

/-! ### Claim C6 -/

/-- Claim C6: no two headings of an extracted outline share the same pair
of lowercased text and page number. -/
theorem claim_C6_theorem (fallback : List Char) (pages : List PdfPage) :
    (extract_outline fallback pages).outline.Pairwise
      (fun a b => ¬(pyLower a.text = pyLower b.text ∧ a.page = b.page)) := by
  rw [extract_outline_outline]
  unfold outlineOf
  split
  · exact List.Pairwise.nil
  · dsimp only
    split
    · exact List.Pairwise.nil
    · refine ((assembleGo_keys _ _).2).imp ?_
      intro a b hne hand
      refine hne ?_
      unfold headingKey
      rw [hand.1, hand.2]

/-! ### Claim C7 -/

/-- Claim C7: one step of `group_multiline_headings` merges the next
candidate into the current group iff it has the same rounded size and page
and a continuation signal holds (lowercase first letter, group's last word
of at most 3 characters, or incoming first word of at most 3 characters);
on a merge the texts are joined without a separating space (after
stripping the group's trailing hyphens and spaces) iff the group's text
ends with a hyphen or its last word has at most 2 characters or the
incoming first word has at most 2 characters, and with a single space
otherwise. -/
theorem claim_C7_theorem (g c : Cand) (rest : List Cand)
    (hct : c.text ≠ []) :
    (shouldMerge g c = true ↔ specMergeCond g c) ∧
      (specBrokenWord g.text c.text →
        joinTexts g.text c.text = rstripDashSp g.text ++ c.text) ∧
      (¬specBrokenWord g.text c.text →
        joinTexts g.text c.text = g.text ++ ' ' :: c.text) ∧
      (specMergeCond g c →
        groupGo g (c :: rest) =
          groupGo ⟨g.size, joinTexts g.text c.text, g.page⟩ rest) ∧
      (¬specMergeCond g c → groupGo g (c :: rest) = g :: groupGo c rest) := by
  refine ⟨shouldMerge_iff hct, ?_, ?_, ?_, ?_⟩
  · intro hb
    unfold joinTexts
    rw [if_pos (joinCond_iff.mpr hb)]
  · intro hb
    unfold joinTexts
    rw [if_neg (fun hc' => hb (joinCond_iff.mp hc'))]
  · intro hm
    simp [groupGo, (shouldMerge_iff hct).mpr hm]
  · intro hm
    have hsm : shouldMerge g c = false := by
      cases hsm : shouldMerge g c
      · rfl
      · exact absurd ((shouldMerge_iff hct).mp hsm) hm
    simp [groupGo, hsm]

/-- A sample current group for the grouper step. -/
def sampleG : Cand := ⟨16, "Machine Learning for".toList, 2⟩

/-- A sample incoming candidate for the grouper step. -/
def sampleC : Cand := ⟨16, "the win".toList, 2⟩

/-- Claim C7 witness: the step characterization instantiated at a concrete
group and candidate. -/
theorem claim_C7_witness :
    sampleC.text ≠ [] ∧
      ((shouldMerge sampleG sampleC = true ↔ specMergeCond sampleG sampleC) ∧
        (specBrokenWord sampleG.text sampleC.text →
          joinTexts sampleG.text sampleC.text =
            rstripDashSp sampleG.text ++ sampleC.text) ∧
        (¬specBrokenWord sampleG.text sampleC.text →
          joinTexts sampleG.text sampleC.text =
            sampleG.text ++ ' ' :: sampleC.text) ∧
        (specMergeCond sampleG sampleC →
          groupGo sampleG (sampleC :: []) =
            groupGo ⟨sampleG.size, joinTexts sampleG.text sampleC.text,
              sampleG.page⟩ []) ∧
        (¬specMergeCond sampleG sampleC →
          groupGo sampleG (sampleC :: []) = sampleG :: groupGo sampleC [])) :=
  ⟨by decide, claim_C7_theorem sampleG sampleC [] (by decide)⟩

/-! ### Claim C8 -/

theorem sublist_pages_of_textPage {l1 : List Heading} {l2 : List Cand}
    (h : (l1.map (fun x => (x.text, x.page))).Sublist
      (l2.map (fun c => (c.text, c.page)))) :
    (l1.map (fun x => x.page)).Sublist (l2.map (fun c => c.page)) := by
  have h2 := h.map Prod.snd
  simpa [List.map_map, Function.comp] using h2

theorem sublist_pages_of_sizePage {l1 l2 : List Cand}
    (h : (l1.map (fun c => (c.size, c.page))).Sublist
      (l2.map (fun c => (c.size, c.page)))) :
    (l1.map (fun c => c.page)).Sublist (l2.map (fun c => c.page)) := by
  have h2 := h.map Prod.snd
  simpa [List.map_map, Function.comp] using h2

/-- Claim C8: the headings of the final outline appear in original reading
order: their page numbers are pairwise nondecreasing, and their
`(text, page)` projections form a sublist of the grouped candidate
sequence in scan order — no re-sorting by size or level. -/
theorem claim_C8_theorem (fallback : List Char) (pages : List PdfPage) :
    (extract_outline fallback pages).outline.Pairwise
        (fun a b => a.page ≤ b.page) ∧
      ((extract_outline fallback pages).outline.map
          (fun h => (h.text, h.page))).Sublist
        ((group_multiline_headings (collectFrom 1 pages)).map
          (fun c => (c.text, c.page))) := by
  rw [extract_outline_outline]
  unfold outlineOf
  split
  · exact ⟨List.Pairwise.nil, List.nil_sublist _⟩
  · dsimp only
    split
    · exact ⟨List.Pairwise.nil, List.nil_sublist _⟩
    · have hsub := @assembleGo_sublist
        (mkThresholds (uniqueDesc
          (List.filterMap (fun c =>
            if eqTitleSize c.size (extract_title (pages.headD [])).2 = true
            then none else some c.size)
            (group_multiline_headings (collectFrom 1 pages)))))
        ((extract_title (pages.headD [])).2)
        (group_multiline_headings (collectFrom 1 pages)) []
      refine ⟨?_, hsub⟩
      have hcands : (collectFrom 1 pages).Pairwise
          (fun a b => a.page ≤ b.page) := collectFrom_pages_pairwise pages 1
      have hgp : ((group_multiline_headings (collectFrom 1 pages)).map
          (fun c => c.page)).Sublist
          ((collectFrom 1 pages).map (fun c => c.page)) :=
        sublist_pages_of_sizePage (group_multiline_sizePage_sublist _)
      have hop := sublist_pages_of_textPage hsub
      have h1 : ((collectFrom 1 pages).map (fun c => c.page)).Pairwise
          (fun a b => a ≤ b) := List.pairwise_map.mpr hcands
      have h2 := List.Pairwise.sublist (hop.trans hgp) h1
      exact List.pairwise_map.mp h2

/-! ### Claim C9 -/

/-- Claim C9: when the document yields no grouped heading candidates, or
every grouped candidate's size equals the detected title size, the
extracted outline is the empty list. -/
theorem claim_C9_theorem (fallback : List Char) (pages : List PdfPage)
    (hcase : group_multiline_headings (collectFrom 1 pages) = [] ∨
      ∀ c ∈ group_multiline_headings (collectFrom 1 pages),
        eqTitleSize c.size (extract_title (pages.headD [])).2 = true) :
    (extract_outline fallback pages).outline = [] := by
  rw [extract_outline_outline]
  unfold outlineOf
  rcases hcase with hc | hc
  · rw [if_pos hc]
  · split
    · rfl
    · dsimp only
      rw [if_pos]
      exact List.filterMap_eq_nil_iff.mpr (fun c hcm => by rw [if_pos (hc c hcm)])

/-- Claim C9 witness: the single-size sample document detects a title of
size 12, every grouped candidate carries the title size, and the outline
is empty. -/
theorem claim_C9_witness :
    (group_multiline_headings (collectFrom 1 sampleDocB) = [] ∨
      ∀ c ∈ group_multiline_headings (collectFrom 1 sampleDocB),
        eqTitleSize c.size (extract_title (sampleDocB.headD [])).2 = true) ∧
      (extract_outline "docB".toList sampleDocB).outline = [] :=
  ⟨Or.inr (by decide), claim_C9_theorem "docB".toList sampleDocB
    (Or.inr (by decide))⟩

/-! ### Claim C10 -/

/-- Claim C10: every heading of the final outline has nonempty text of
length at least 4 characters containing a non-whitespace character —
candidates are only emitted with cleaned text longer than 3 characters and
merging only concatenates texts, so the grouper's character and word
accesses never see an empty or all-whitespace string. -/
theorem claim_C10_theorem (fallback : List Char) (pages : List PdfPage) :
    ∀ h ∈ (extract_outline fallback pages).outline,
      3 < h.text.length ∧ ∃ x ∈ h.text, isPySpace x = false := by
  intro h hh
  rw [extract_outline_outline] at hh
  obtain ⟨c, hc, h1, -, -, -⟩ := outlineOf_mem hh
  have hg := group_multiline_goodText
    (fun x hx => (collectFrom_goodText pages 1 x hx).1) c hc
  rw [h1]
  exact hg

/-- Claim C10 witness: the length and non-whitespace facts instantiated at
the concrete heading extracted from the two-size sample document. -/
theorem claim_C10_witness :
    (⟨HLevel.H1, "Getting Started".toList, 1⟩ : Heading) ∈
        (extract_outline "docA".toList sampleDocA).outline ∧
      (3 < ("Getting Started".toList : List Char).length ∧
        ∃ x ∈ ("Getting Started".toList : List Char), isPySpace x = false) :=
  ⟨by decide, claim_C10_theorem "docA".toList sampleDocA
    ⟨HLevel.H1, "Getting Started".toList, 1⟩ (by decide)⟩
